import Mathlib

/-!
Verification of the lock-satisfaction algorithm of `gps/verify/lock.go`
(`LockSatisfaction`, `Passed`, `findEffectualConstraints`,
`LockSatisfiesInputs`) against its specification.

Modelling conventions, matching the Go source:
* `gps.Version` is opaque in the source (compared only through
  `Constraint.Matches`), so the whole development is parametric in a type `V`.
* `gps.Constraint` is an interface of which only `Matches(Version) bool` is
  used; it is modelled as a structure wrapping that one capability.
* Go sets backed by `map[string]bool` (`ininputs`, `inlock`, `req`, `eff`)
  are modelled as `Finset String`; Go slices stay `List String`.
* Go maps `map[gps.ProjectRoot]ConstraintMismatch` (`badovr`,
  `badconstraint`) are modelled as association lists with replace-on-insert
  semantics (`mapInsert`), built in the deterministic order of
  `l.Projects()`; `gps.ProjectRoot` is a string type.
* The radix tree of `findEffectualConstraints` (`go-radix`) only surfaces
  through `Insert` of every key of `DependencyConstraints()` and
  `LongestPrefix(imp)`, which returns the longest inserted key that is a
  raw string prefix of `imp`; that capability is embedded directly as
  `longestMatchingKey` over the key list.
* `pkgtree.PackageTree` and `paths.IsStandardImportPath` are external
  collaborators: the tree is a capability producing a `ReachMap`, whose
  `FlattenFn` takes the standard-library predicate and yields the
  flattened list of imports; the predicate is passed as a parameter `isStd`.
* Nilable Go interface values (`gps.LockWithImports`, `gps.RootManifest`)
  become `Option`; a Go runtime panic (method call on a nil interface)
  is modelled as the result `none` of `LockSatisfiesInputs`.
-/

namespace GpsVerify

/-- `gps.Constraint`, restricted to the single capability the verify code
uses: `Matches(Version) bool`. -/
structure Constraint (V : Type) where
  Matches : V → Bool

/-- `gps.ProjectIdentifier`, restricted to the `ProjectRoot` field used by
`LockSatisfiesInputs` (`lp.Ident().ProjectRoot`). -/
structure ProjectIdentifier where
  projectRoot : String

/-- `gps.LockedProject`, restricted to the two accessors the verify code
uses: `Ident()` and `Version()`. -/
structure LockedProject (V : Type) where
  ident : ProjectIdentifier
  version : V

/-- `gps.LockWithImports`: `Projects()` and `InputImports()`. -/
structure Lock (V : Type) where
  projects : List (LockedProject V)
  inputImports : List String

/-- `gps.ProjectProperties`: a source hint and a constraint; only the
`Constraint` field is read by the verify code. -/
structure ProjectProperties (V : Type) where
  source : String
  constraint : Constraint V

/-- `pkgtree.IgnoredRuleset`: opaque to this code, only passed through to
the reachability query. -/
structure IgnoredRuleset where
  rules : List String

/-- `gps.RootManifest`, restricted to the four accessors the verify code
uses. `Overrides()` and `DependencyConstraints()` return Go maps keyed by
`ProjectRoot`, modelled as association lists; `RequiredPackages()` returns
a `map[string]bool` set, modelled as a `Finset`. -/
structure Manifest (V : Type) where
  overrides : List (String × ProjectProperties V)
  dependencyConstraints : List (String × ProjectProperties V)
  ignoredPackages : IgnoredRuleset
  requiredPackages : Finset String

/-- The `ReachMap` returned by `PackageTree.ToReachMap`, restricted to the
`FlattenFn` capability: given the standard-library predicate it yields the
flattened non-stdlib import list. -/
structure ReachMap where
  flattenFn : (String → Bool) → List String

/-- `pkgtree.PackageTree`, restricted to the reachability query
`ToReachMap(main, tests, backprop, ignore)`. The error map that
`ToReachMap` also returns is discarded by the verify code (`rm, _ := ...`)
and therefore omitted. -/
structure PackageTree where
  toReachMap : Bool → Bool → Bool → Option IgnoredRuleset → ReachMap

/-- `verify.ConstraintMismatch`: a constraint together with a version it
does not allow. -/
structure ConstraintMismatch (V : Type) where
  c : Constraint V
  v : V

/-- `verify.LockSatisfaction`. `missingPkgs` and `excessPkgs` are built by
iterating the Go map `pkgDiff`, whose iteration order is unspecified, so
their set content is what is modelled; the two mismatch maps are modelled
as association lists built in `l.Projects()` order. -/
structure LockSatisfaction (V : Type) where
  nolock : Bool
  missingPkgs : Finset String
  excessPkgs : Finset String
  badovr : List (String × ConstraintMismatch V)
  badconstraint : List (String × ConstraintMismatch V)

variable {V : Type}

/-- Go map read `m[k]` (comma-ok form): the value at the first matching
key, if any. -/
def mapLookup (m : List (String × α)) (k : String) : Option α :=
  match m with
  | [] => none
  | (k', a) :: rest => if k' = k then some a else mapLookup rest k

/-- Go map write `m[k] = a`: replace the binding of `k` if present,
otherwise append it. -/
def mapInsert (m : List (String × α)) (k : String) (a : α) : List (String × α) :=
  match m with
  | [] => [(k, a)]
  | (k', b) :: rest => if k' = k then (k, a) :: rest else (k', b) :: mapInsert rest k a

/-- Go map key test `_, has := m[k]`. -/
def mapHasKey (m : List (String × α)) (k : String) : Bool :=
  m.any (fun p => p.1 = k)

/-- Raw string prefix test, as performed byte-wise by the radix tree; on
the character sequences of the two strings. -/
def isPfx (a b : String) : Bool :=
  a.data.isPrefixOf b.data

/-- `go-radix` `Tree.LongestPrefix(imp)` over the set of inserted keys:
the longest key that is a raw prefix of `imp`, if any. -/
def longestMatchingKey : List String → String → Option String
  | [], _ => none
  | k :: rest, imp =>
    match longestMatchingKey rest imp with
    | none => if isPfx k imp then some k else none
    | some b => if isPfx k imp ∧ b.length < k.length then some k else some b

/-- `verify.findEffectualConstraints`: insert every key of
`DependencyConstraints()` into a radix tree, then mark, for each import,
the longest matching key as effectual. -/
def findEffectualConstraints (m : Manifest V) (imports : Finset String) : Finset String :=
  imports.biUnion (fun imp =>
    match longestMatchingKey (m.dependencyConstraints.map Prod.fst) imp with
    | some root => {root}
    | none => ∅)

/-- `verify.LockSatisfaction.Passed`. -/
def LockSatisfaction.Passed (ls : LockSatisfaction V) : Bool :=
  if ls.nolock then false
  else if 0 < ls.missingPkgs.card then false
  else if 0 < ls.excessPkgs.card then false
  else if 0 < ls.badovr.length then false
  else if 0 < ls.badconstraint.length then false
  else true

/-- `verify.LockSatisfaction.MissingImports`. -/
def LockSatisfaction.MissingImports (ls : LockSatisfaction V) : Finset String :=
  ls.missingPkgs

/-- `verify.LockSatisfaction.ExcessImports`. -/
def LockSatisfaction.ExcessImports (ls : LockSatisfaction V) : Finset String :=
  ls.excessPkgs

/-- `verify.LockSatisfaction.UnmatchedOverrides`. -/
def LockSatisfaction.UnmatchedOverrides (ls : LockSatisfaction V) :
    List (String × ConstraintMismatch V) :=
  ls.badovr

/-- `verify.LockSatisfaction.UnmatchedConstraints`. -/
def LockSatisfaction.UnmatchedConstraints (ls : LockSatisfaction V) :
    List (String × ConstraintMismatch V) :=
  ls.badconstraint

/-- The Go set `inlock`: `l.InputImports()` loaded into a `map[string]bool`. -/
def recordedSet (l : Lock V) : Finset String :=
  l.inputImports.toFinset

/-- The Go set `ininputs`: the flattened reachability result
`rpt.ToReachMap(true, true, false, ig).FlattenFn(IsStandardImportPath)`
unioned with `m.RequiredPackages()`. -/
def requiredSet (isStd : String → Bool) (m : Manifest V) (rpt : PackageTree) : Finset String :=
  ((rpt.toReachMap true true false (some m.ignoredPackages)).flattenFn isStd).toFinset ∪
    m.requiredPackages

/-- The body of the `for _, lp := range l.Projects()` loop of
`LockSatisfiesInputs`: an override, when present, is checked and fully
shadows the constraint (`continue`); otherwise an effectual constraint is
checked against the locked version. -/
def checkStep (ovr constraints : List (String × ProjectProperties V))
    (eff : Finset String)
    (acc : List (String × ConstraintMismatch V) × List (String × ConstraintMismatch V))
    (lp : LockedProject V) :
    List (String × ConstraintMismatch V) × List (String × ConstraintMismatch V) :=
  match mapLookup ovr lp.ident.projectRoot with
  | some pp =>
    if pp.constraint.Matches lp.version then acc
    else (mapInsert acc.1 lp.ident.projectRoot ⟨pp.constraint, lp.version⟩, acc.2)
  | none =>
    match mapLookup constraints lp.ident.projectRoot with
    | some pp =>
      if lp.ident.projectRoot ∈ eff ∧ pp.constraint.Matches lp.version = false then
        (acc.1, mapInsert acc.2 lp.ident.projectRoot ⟨pp.constraint, lp.version⟩)
      else acc
    | none => acc

/-- The per-locked-project constraint-check loop of `LockSatisfiesInputs`,
accumulating the `badovr` and `badconstraint` maps. -/
def checkProjects (ovr constraints : List (String × ProjectProperties V))
    (eff : Finset String) :
    List (LockedProject V) →
    List (String × ConstraintMismatch V) × List (String × ConstraintMismatch V) →
    List (String × ConstraintMismatch V) × List (String × ConstraintMismatch V)
  | [], acc => acc
  | lp :: rest, acc =>
    checkProjects ovr constraints eff rest (checkStep ovr constraints eff acc lp)

/-- `verify.LockSatisfiesInputs`. A `none` lock yields the nolock result.
With a lock present and a `none` manifest, the function reaches
`findEffectualConstraints(m, ininputs)` (and `m.Overrides()`,
`m.DependencyConstraints()`), a method call on a nil interface: a Go
runtime panic, modelled as the result `none`. Otherwise the result is
assembled from the import-set difference and the per-project checks. -/
def LockSatisfiesInputs (isStd : String → Bool) (l : Option (Lock V))
    (m : Option (Manifest V)) (rpt : PackageTree) : Option (LockSatisfaction V) :=
  match l with
  | none => some { nolock := true, missingPkgs := ∅, excessPkgs := ∅,
                   badovr := [], badconstraint := [] }
  | some l =>
    match m with
    | none => none
    | some mm =>
      let inlock := recordedSet l
      let ininputs := requiredSet isStd mm rpt
      -- first pkgDiff loop: members of ininputs absent from inlock are
      -- missing; shared members are deleted from inlock
      let missingPkgs := ininputs.filter (fun ip => ip ∉ inlock)
      -- second pkgDiff loop over what remains of inlock after deletion
      let excessPkgs := (inlock.filter (fun ip => ip ∉ ininputs)).filter
        (fun ip => ip ∉ ininputs)
      let eff := findEffectualConstraints mm ininputs
      let bad := checkProjects mm.overrides mm.dependencyConstraints eff l.projects ([], [])
      some { nolock := false, missingPkgs := missingPkgs, excessPkgs := excessPkgs,
             badovr := bad.1, badconstraint := bad.2 }

/-- A `PackageTree` whose flattened reachability output is the
duplicate-free version of another tree's output. -/
def dedupReach (rpt : PackageTree) : PackageTree :=
  ⟨fun a b c ig => ⟨fun f => ((rpt.toReachMap a b c ig).flattenFn f).dedup⟩⟩

/-! Concrete instances (with `V := Nat`) used to exercise the theorems:
a constraint satisfied only by version `1`, a tree reaching `a` and
`y/sub`, a manifest overriding `x` and `w` and constraining `y` and `z`,
and a lock pinning `x` and `y` at version `2`. -/

/-- A sample constraint: matches exactly version `1`. -/
def sampleConstraint : Constraint Nat := ⟨fun v => v == 1⟩

/-- A sample standard-library predicate: nothing is standard. -/
def stdFalse : String → Bool := fun _ => false

/-- A sample package tree reaching imports `a` and `y/sub`. -/
def sampleTree : PackageTree := ⟨fun _ _ _ _ => ⟨fun _ => ["a", "y/sub"]⟩⟩

/-- A sample manifest: overrides on `x` and `w`, constraints on `y` and
`z`, no ignored and no required packages. -/
def sampleManifest : Manifest Nat :=
  { overrides := [("x", ⟨"", sampleConstraint⟩), ("w", ⟨"", sampleConstraint⟩)]
    dependencyConstraints := [("y", ⟨"", sampleConstraint⟩), ("z", ⟨"", sampleConstraint⟩)]
    ignoredPackages := ⟨[]⟩
    requiredPackages := ∅ }

/-- A sample lock pinning `x` and `y` at version `2`, with input imports
`a` and `y/sub`. -/
def sampleLock : Lock Nat :=
  { projects := [⟨⟨"x"⟩, 2⟩, ⟨⟨"y"⟩, 2⟩]
    inputImports := ["a", "y/sub"] }

/-- `sampleLock` with its input-import list in the opposite order. -/
def sampleLockPerm : Lock Nat :=
  { projects := [⟨⟨"x"⟩, 2⟩, ⟨⟨"y"⟩, 2⟩]
    inputImports := ["y/sub", "a"] }

/-- The result of `LockSatisfiesInputs` on the sample inputs: no import
difference, the override on `x` fails at version `2`, and the (effectual,
via `y/sub`) constraint on `y` fails at version `2`. -/
def sampleRes : LockSatisfaction Nat :=
  { nolock := false, missingPkgs := ∅, excessPkgs := ∅,
    badovr := [("x", ⟨sampleConstraint, 2⟩)],
    badconstraint := [("y", ⟨sampleConstraint, 2⟩)] }

/-! Helper lemmas about the Go-map model. -/

theorem mapHasKey_nil (k : String) : mapHasKey ([] : List (String × α)) k = false := rfl

theorem mapHasKey_cons (p : String × α) (rest : List (String × α)) (k : String) :
    mapHasKey (p :: rest) k = (decide (p.1 = k) || mapHasKey rest k) := rfl

theorem mapInsert_cons (kp : String) (vp : α) (rest : List (String × α)) (k : String) (a : α) :
    mapInsert ((kp, vp) :: rest) k a =
      if kp = k then (k, a) :: rest else (kp, vp) :: mapInsert rest k a := rfl

theorem mapLookup_cons (kp : String) (vp : α) (rest : List (String × α)) (k : String) :
    mapLookup ((kp, vp) :: rest) k = if kp = k then some vp else mapLookup rest k := rfl

theorem mapHasKey_mapInsert (m : List (String × α)) (k : String) (a : α) (k' : String) :
    mapHasKey (mapInsert m k a) k' = true ↔ k' = k ∨ mapHasKey m k' = true := by
  induction m with
  | nil =>
    simp only [mapInsert, mapHasKey_cons, mapHasKey_nil, Bool.or_false,
      decide_eq_true_eq]
    exact ⟨fun h => Or.inl h.symm, fun h => by rcases h with h | h; exact h.symm; cases h⟩
  | cons p rest ih =>
    obtain ⟨kp, vp⟩ := p
    by_cases hk : kp = k
    · subst hk
      rw [mapInsert_cons, if_pos rfl]
      by_cases hkk : kp = k'
      · subst hkk
        simp [mapHasKey_cons]
      · have hkk' : ¬k' = kp := fun h => hkk h.symm
        simp [mapHasKey_cons, hkk, hkk']
    · rw [mapInsert_cons, if_neg hk]
      simp only [mapHasKey_cons, Bool.or_eq_true, decide_eq_true_eq, ih]
      tauto

theorem mapHasKey_iff_mapLookup_isSome (m : List (String × α)) (k : String) :
    mapHasKey m k = true ↔ (mapLookup m k).isSome = true := by
  induction m with
  | nil => simp [mapHasKey_nil, mapLookup]
  | cons p rest ih =>
    obtain ⟨kp, vp⟩ := p
    by_cases hk : kp = k
    · subst hk
      simp [mapHasKey_cons, mapLookup_cons]
    · simp [mapHasKey_cons, mapLookup_cons, hk, ih]

theorem mapHasKey_checkStep_fst (ovr cs : List (String × ProjectProperties V))
    (eff : Finset String)
    (acc : List (String × ConstraintMismatch V) × List (String × ConstraintMismatch V))
    (lp : LockedProject V) (k : String) :
    mapHasKey (checkStep ovr cs eff acc lp).1 k = true ↔
      mapHasKey acc.1 k = true ∨
        (lp.ident.projectRoot = k ∧ ∃ pp, mapLookup ovr k = some pp ∧
          pp.constraint.Matches lp.version = false) := by
  unfold checkStep
  split
  next pp hov =>
    split
    next hm =>
      have hside : ¬(lp.ident.projectRoot = k ∧ ∃ pp', mapLookup ovr k = some pp' ∧
          pp'.constraint.Matches lp.version = false) := by
        rintro ⟨hk, pp', hpp', hm'⟩
        rw [← hk, hov, Option.some.injEq] at hpp'
        rw [← hpp', hm] at hm'
        cases hm'
      simp [hside]
    next hm =>
      simp only [Bool.not_eq_true] at hm
      simp only [mapHasKey_mapInsert]
      constructor
      · rintro (h | h)
        · exact Or.inr ⟨h.symm, pp, by rw [h]; exact hov, hm⟩
        · exact Or.inl h
      · rintro (h | ⟨hk, -⟩)
        · exact Or.inr h
        · exact Or.inl hk.symm
  next hov =>
    have hside : ¬(lp.ident.projectRoot = k ∧ ∃ pp, mapLookup ovr k = some pp ∧
        pp.constraint.Matches lp.version = false) := by
      rintro ⟨hk, pp, hpp, -⟩
      rw [← hk, hov] at hpp
      cases hpp
    split
    next pp hcs =>
      split
      next hc => simp [hside]
      next hc => simp [hside]
    next hcs => simp [hside]

theorem mapHasKey_checkStep_snd (ovr cs : List (String × ProjectProperties V))
    (eff : Finset String)
    (acc : List (String × ConstraintMismatch V) × List (String × ConstraintMismatch V))
    (lp : LockedProject V) (k : String) :
    mapHasKey (checkStep ovr cs eff acc lp).2 k = true ↔
      mapHasKey acc.2 k = true ∨
        (lp.ident.projectRoot = k ∧ mapLookup ovr k = none ∧
          ∃ pp, mapLookup cs k = some pp ∧ k ∈ eff ∧
            pp.constraint.Matches lp.version = false) := by
  unfold checkStep
  split
  next pp hov =>
    have hside : ¬(lp.ident.projectRoot = k ∧ mapLookup ovr k = none ∧
        ∃ pp', mapLookup cs k = some pp' ∧ k ∈ eff ∧
          pp'.constraint.Matches lp.version = false) := by
      rintro ⟨hk, hnone, -⟩
      rw [← hk, hov] at hnone
      cases hnone
    split
    next hm => simp [hside]
    next hm => simp [hside]
  next hov =>
    split
    next pp hcs =>
      split
      next hc =>
        simp only [mapHasKey_mapInsert]
        constructor
        · rintro (h | h)
          · refine Or.inr ⟨h.symm, by rw [h]; exact hov, pp, by rw [h]; exact hcs, ?_, hc.2⟩
            rw [h]
            exact hc.1
          · exact Or.inl h
        · rintro (h | ⟨hk, -⟩)
          · exact Or.inr h
          · exact Or.inl hk.symm
      next hc =>
        have hside : ¬(lp.ident.projectRoot = k ∧ mapLookup ovr k = none ∧
            ∃ pp', mapLookup cs k = some pp' ∧ k ∈ eff ∧
              pp'.constraint.Matches lp.version = false) := by
          rintro ⟨hk, -, pp', hpp', heff, hm'⟩
          rw [← hk, hcs, Option.some.injEq] at hpp'
          rw [← hk] at heff
          rw [← hpp'] at hm'
          exact hc ⟨heff, hm'⟩
        simp [hside]
    next hcs =>
      have hside : ¬(lp.ident.projectRoot = k ∧ mapLookup ovr k = none ∧
          ∃ pp', mapLookup cs k = some pp' ∧ k ∈ eff ∧
            pp'.constraint.Matches lp.version = false) := by
        rintro ⟨hk, -, pp', hpp', -⟩
        rw [← hk, hcs] at hpp'
        cases hpp'
      simp [hside]

theorem mapHasKey_checkProjects_fst (ovr cs : List (String × ProjectProperties V))
    (eff : Finset String) (ps : List (LockedProject V))
    (acc : List (String × ConstraintMismatch V) × List (String × ConstraintMismatch V))
    (k : String) :
    mapHasKey (checkProjects ovr cs eff ps acc).1 k = true ↔
      mapHasKey acc.1 k = true ∨
        ∃ lp ∈ ps, lp.ident.projectRoot = k ∧
          ∃ pp, mapLookup ovr k = some pp ∧
            pp.constraint.Matches lp.version = false := by
  induction ps generalizing acc with
  | nil => simp [checkProjects]
  | cons lp rest ih =>
    rw [checkProjects, ih, mapHasKey_checkStep_fst]
    simp only [List.mem_cons, exists_eq_or_imp]
    exact or_assoc

theorem mapHasKey_checkProjects_snd (ovr cs : List (String × ProjectProperties V))
    (eff : Finset String) (ps : List (LockedProject V))
    (acc : List (String × ConstraintMismatch V) × List (String × ConstraintMismatch V))
    (k : String) :
    mapHasKey (checkProjects ovr cs eff ps acc).2 k = true ↔
      mapHasKey acc.2 k = true ∨
        ∃ lp ∈ ps, lp.ident.projectRoot = k ∧ mapLookup ovr k = none ∧
          ∃ pp, mapLookup cs k = some pp ∧ k ∈ eff ∧
            pp.constraint.Matches lp.version = false := by
  induction ps generalizing acc with
  | nil => simp [checkProjects]
  | cons lp rest ih =>
    rw [checkProjects, ih, mapHasKey_checkStep_snd]
    simp only [List.mem_cons, exists_eq_or_imp]
    exact or_assoc

/-! Helper lemmas about longest-prefix matching. -/

theorem isPfx_unique {a b s : String} (ha : isPfx a s = true) (hb : isPfx b s = true)
    (hl : a.length = b.length) : a = b := by
  rw [isPfx, List.isPrefixOf_iff_prefix] at ha hb
  exact String.ext (List.IsPrefix.eq_of_length
    (List.prefix_of_prefix_length_le ha hb (le_of_eq hl)) hl)

theorem longestMatchingKey_cons (k0 : String) (rest : List String) (imp : String) :
    longestMatchingKey (k0 :: rest) imp =
      match longestMatchingKey rest imp with
      | none => if isPfx k0 imp = true then some k0 else none
      | some b => if isPfx k0 imp = true ∧ b.length < k0.length then some k0 else some b := rfl

theorem longestMatchingKey_eq_none {ks : List String} {imp : String}
    (h : longestMatchingKey ks imp = none) : ∀ k ∈ ks, isPfx k imp = false := by
  induction ks with
  | nil => intro k hk; cases hk
  | cons k0 rest ih =>
    rw [longestMatchingKey_cons] at h
    rcases hrec : longestMatchingKey rest imp with _ | b <;> rw [hrec] at h
    · have h' : (if isPfx k0 imp = true then some k0 else (none : Option String)) = none := h
      by_cases hp : isPfx k0 imp = true
      · rw [if_pos hp] at h'
        cases h'
      · intro k hk
        cases hk with
        | head => exact Bool.eq_false_iff.mpr hp
        | tail _ hk => exact ih hrec k hk
    · have h' : (if isPfx k0 imp = true ∧ b.length < k0.length then some k0
          else some b) = (none : Option String) := h
      by_cases hc : isPfx k0 imp = true ∧ b.length < k0.length
      · rw [if_pos hc] at h'
        cases h'
      · rw [if_neg hc] at h'
        cases h'

theorem longestMatchingKey_mem {ks : List String} {imp r : String}
    (h : longestMatchingKey ks imp = some r) : r ∈ ks ∧ isPfx r imp = true := by
  induction ks generalizing r with
  | nil => cases h
  | cons k0 rest ih =>
    rw [longestMatchingKey_cons] at h
    rcases hrec : longestMatchingKey rest imp with _ | b <;> rw [hrec] at h
    · have h' : (if isPfx k0 imp = true then some k0 else (none : Option String)) = some r := h
      by_cases hp : isPfx k0 imp = true
      · rw [if_pos hp, Option.some.injEq] at h'
        exact ⟨h' ▸ List.mem_cons_self _ _, h' ▸ hp⟩
      · rw [if_neg hp] at h'
        cases h'
    · have h' : (if isPfx k0 imp = true ∧ b.length < k0.length then some k0
          else some b) = some r := h
      by_cases hc : isPfx k0 imp = true ∧ b.length < k0.length
      · rw [if_pos hc, Option.some.injEq] at h'
        exact ⟨h' ▸ List.mem_cons_self _ _, h' ▸ hc.1⟩
      · rw [if_neg hc, Option.some.injEq] at h'
        obtain ⟨hmem, hpfx⟩ := ih (h' ▸ hrec)
        exact ⟨List.mem_cons_of_mem _ hmem, hpfx⟩

theorem longestMatchingKey_maximal {ks : List String} {imp r : String}
    (h : longestMatchingKey ks imp = some r) :
    ∀ k ∈ ks, isPfx k imp = true → k.length ≤ r.length := by
  induction ks generalizing r with
  | nil => cases h
  | cons k0 rest ih =>
    intro k hk hp
    rw [longestMatchingKey_cons] at h
    rcases hrec : longestMatchingKey rest imp with _ | b <;> rw [hrec] at h
    · have h' : (if isPfx k0 imp = true then some k0 else (none : Option String)) = some r := h
      by_cases hp0 : isPfx k0 imp = true
      · rw [if_pos hp0, Option.some.injEq] at h'
        cases hk with
        | head => exact le_of_eq (h' ▸ rfl)
        | tail _ hk =>
          exact absurd hp (by rw [longestMatchingKey_eq_none hrec k hk]; exact Bool.false_ne_true)
      · rw [if_neg hp0] at h'
        cases h'
    · have h' : (if isPfx k0 imp = true ∧ b.length < k0.length then some k0
          else some b) = some r := h
      by_cases hc : isPfx k0 imp = true ∧ b.length < k0.length
      · rw [if_pos hc, Option.some.injEq] at h'
        cases hk with
        | head => exact le_of_eq (h' ▸ rfl)
        | tail _ hk => exact le_trans (ih hrec k hk hp) (h' ▸ le_of_lt hc.2)
      · rw [if_neg hc, Option.some.injEq] at h'
        cases hk with
        | head =>
          have hnlt : ¬b.length < k0.length := fun hlt => hc ⟨hp, hlt⟩
          exact h' ▸ le_of_not_lt hnlt
        | tail _ hk => exact h' ▸ ih hrec k hk hp

theorem longestMatchingKey_eq_some_iff {ks : List String} {imp r : String} :
    longestMatchingKey ks imp = some r ↔
      r ∈ ks ∧ isPfx r imp = true ∧
        ∀ k ∈ ks, isPfx k imp = true → k.length ≤ r.length := by
  constructor
  · intro h
    obtain ⟨hmem, hpfx⟩ := longestMatchingKey_mem h
    exact ⟨hmem, hpfx, longestMatchingKey_maximal h⟩
  · rintro ⟨hmem, hpfx, hmax⟩
    rcases hres : longestMatchingKey ks imp with _ | r'
    · exact absurd hpfx (by rw [longestMatchingKey_eq_none hres r hmem]; exact Bool.false_ne_true)
    · obtain ⟨hmem', hpfx'⟩ := longestMatchingKey_mem hres
      have h1 : r'.length ≤ r.length := hmax r' hmem' hpfx'
      have h2 : r.length ≤ r'.length := longestMatchingKey_maximal hres r hmem hpfx
      exact congrArg some (isPfx_unique hpfx' hpfx (le_antisymm h1 h2))

theorem mem_findEffectualConstraints {mm : Manifest V} {imports : Finset String}
    {root : String} :
    root ∈ findEffectualConstraints mm imports ↔
      ∃ imp ∈ imports,
        longestMatchingKey (mm.dependencyConstraints.map Prod.fst) imp = some root := by
  simp only [findEffectualConstraints, Finset.mem_biUnion]
  constructor
  · rintro ⟨imp, himp, hmem⟩
    rcases hl : longestMatchingKey (mm.dependencyConstraints.map Prod.fst) imp with - | r'
    · rw [hl] at hmem
      cases hmem
    · rw [hl] at hmem
      rw [Finset.mem_singleton] at hmem
      exact ⟨imp, himp, by rw [hl, hmem]⟩
  · rintro ⟨imp, himp, hl⟩
    exact ⟨imp, himp, by rw [hl]; exact Finset.mem_singleton_self root⟩

/-! Normal forms of `LockSatisfiesInputs` on the three input shapes, and
the characterization of `Passed`. -/

theorem lockSatisfiesInputs_none (isStd : String → Bool) (m : Option (Manifest V))
    (rpt : PackageTree) :
    LockSatisfiesInputs isStd none m rpt =
      some { nolock := true, missingPkgs := ∅, excessPkgs := ∅,
             badovr := [], badconstraint := [] } := rfl

theorem lockSatisfiesInputs_some_none (isStd : String → Bool) (l : Lock V)
    (rpt : PackageTree) :
    LockSatisfiesInputs isStd (some l) none rpt = none := rfl

theorem lockSatisfiesInputs_some_some (isStd : String → Bool) (l : Lock V)
    (mm : Manifest V) (rpt : PackageTree) :
    LockSatisfiesInputs isStd (some l) (some mm) rpt =
      some { nolock := false,
             missingPkgs := requiredSet isStd mm rpt \ recordedSet l,
             excessPkgs := recordedSet l \ requiredSet isStd mm rpt,
             badovr := (checkProjects mm.overrides mm.dependencyConstraints
               (findEffectualConstraints mm (requiredSet isStd mm rpt)) l.projects ([], [])).1,
             badconstraint := (checkProjects mm.overrides mm.dependencyConstraints
               (findEffectualConstraints mm (requiredSet isStd mm rpt)) l.projects ([], [])).2 } := by
  simp only [LockSatisfiesInputs, Option.some.injEq, LockSatisfaction.mk.injEq]
  simp [Finset.sdiff_eq_filter, Finset.filter_filter]

theorem Passed_eq_true_iff (res : LockSatisfaction V) :
    res.Passed = true ↔ res.nolock = false ∧ res.missingPkgs = ∅ ∧ res.excessPkgs = ∅ ∧
      res.badovr = [] ∧ res.badconstraint = [] := by
  unfold LockSatisfaction.Passed
  split_ifs with h1 h2 h3 h4 h5
  · simp [h1]
  · simp [Finset.nonempty_iff_ne_empty.mp (Finset.card_pos.mp h2)]
  · simp [Finset.nonempty_iff_ne_empty.mp (Finset.card_pos.mp h3)]
  · simp [List.length_pos.mp h4]
  · simp [List.length_pos.mp h5]
  · have e1 : res.nolock = false := Bool.eq_false_iff.mpr h1
    have e2 : res.missingPkgs = ∅ := Finset.card_eq_zero.mp (Nat.eq_zero_of_not_pos h2)
    have e3 : res.excessPkgs = ∅ := Finset.card_eq_zero.mp (Nat.eq_zero_of_not_pos h3)
    have e4 : res.badovr = [] := List.length_eq_zero.mp (Nat.eq_zero_of_not_pos h4)
    have e5 : res.badconstraint = [] := List.length_eq_zero.mp (Nat.eq_zero_of_not_pos h5)
    simp [e1, e2, e3, e4, e5]

theorem listToFinset_dedup (l : List String) : l.dedup.toFinset = l.toFinset := by
  ext a
  simp [List.mem_toFinset, List.mem_dedup]

/-! The claim theorems. -/

/-- Claim C1: for every Lock, Manifest, and PackageTree input, a result of
`LockSatisfiesInputs` has `Passed` true iff the lock is present (nolock
flag unset), the missing- and excess-import sets are empty, and both
mismatch mappings are empty. -/
theorem passed_iff_lock_present_and_all_empty (isStd : String → Bool)
    (l : Option (Lock V)) (m : Option (Manifest V)) (rpt : PackageTree)
    (res : LockSatisfaction V)
    (h : LockSatisfiesInputs isStd l m rpt = some res) :
    res.Passed = true ↔
      l.isSome = true ∧ res.missingPkgs = ∅ ∧ res.excessPkgs = ∅ ∧
        res.badovr = [] ∧ res.badconstraint = [] := by
  rcases l with _ | l
  · rw [lockSatisfiesInputs_none, Option.some.injEq] at h
    subst h
    simp [Passed_eq_true_iff]
  · rcases m with _ | mm
    · rw [lockSatisfiesInputs_some_none] at h
      cases h
    · rw [lockSatisfiesInputs_some_some, Option.some.injEq] at h
      subst h
      rw [Passed_eq_true_iff]
      simp

/-- Witness for C1 at the sample inputs. -/
theorem passed_iff_lock_present_and_all_empty_witness :
    sampleRes.Passed = true ↔
      (some sampleLock).isSome = true ∧ sampleRes.missingPkgs = ∅ ∧
        sampleRes.excessPkgs = ∅ ∧ sampleRes.badovr = [] ∧
        sampleRes.badconstraint = [] :=
  passed_iff_lock_present_and_all_empty stdFalse (some sampleLock)
    (some sampleManifest) sampleTree sampleRes rfl

/-- Claim C2: the missing set is exactly required minus recorded, the
excess set exactly recorded minus required; they are disjoint and any
path in both inputs appears in neither. -/
theorem missing_excess_eq_set_differences (isStd : String → Bool) (l : Lock V)
    (mm : Manifest V) (rpt : PackageTree) (res : LockSatisfaction V)
    (h : LockSatisfiesInputs isStd (some l) (some mm) rpt = some res) :
    res.missingPkgs = requiredSet isStd mm rpt \ recordedSet l ∧
    res.excessPkgs = recordedSet l \ requiredSet isStd mm rpt ∧
    Disjoint res.missingPkgs res.excessPkgs ∧
    ∀ p, p ∈ requiredSet isStd mm rpt → p ∈ recordedSet l →
      p ∉ res.missingPkgs ∧ p ∉ res.excessPkgs := by
  rw [lockSatisfiesInputs_some_some, Option.some.injEq] at h
  subst h
  refine ⟨rfl, rfl, disjoint_sdiff_sdiff, ?_⟩
  intro p hreq hrec
  constructor
  · simp [Finset.mem_sdiff, hrec]
  · simp [Finset.mem_sdiff, hreq]

/-- Witness for C2 at the sample inputs. -/
theorem missing_excess_eq_set_differences_witness :
    sampleRes.missingPkgs =
      requiredSet stdFalse sampleManifest sampleTree \ recordedSet sampleLock ∧
    sampleRes.excessPkgs =
      recordedSet sampleLock \ requiredSet stdFalse sampleManifest sampleTree ∧
    Disjoint sampleRes.missingPkgs sampleRes.excessPkgs ∧
    ∀ p, p ∈ requiredSet stdFalse sampleManifest sampleTree →
      p ∈ recordedSet sampleLock →
        p ∉ sampleRes.missingPkgs ∧ p ∉ sampleRes.excessPkgs :=
  missing_excess_eq_set_differences stdFalse sampleLock sampleManifest
    sampleTree sampleRes rfl

/-- Claim C3: an override on a root fully shadows the normal constraint:
that root never appears in the bad-constraints mapping, and if the
override fails against the locked version of a project with that root,
the root is recorded in bad-overrides. -/
theorem override_shadows_constraint (isStd : String → Bool) (l : Lock V)
    (mm : Manifest V) (rpt : PackageTree) (res : LockSatisfaction V) (root : String)
    (h : LockSatisfiesInputs isStd (some l) (some mm) rpt = some res)
    (hovr : (mapLookup mm.overrides root).isSome = true) :
    mapHasKey res.badconstraint root = false ∧
    ∀ lp ∈ l.projects, lp.ident.projectRoot = root →
      ∀ pp, mapLookup mm.overrides root = some pp →
        pp.constraint.Matches lp.version = false →
          mapHasKey res.badovr root = true := by
  rw [lockSatisfiesInputs_some_some, Option.some.injEq] at h
  subst h
  constructor
  · rw [Bool.eq_false_iff]
    intro hk
    rw [mapHasKey_checkProjects_snd] at hk
    rcases hk with hk | ⟨lp, -, -, hnone, -⟩
    · simp [mapHasKey] at hk
    · rw [hnone] at hovr
      exact Bool.false_ne_true hovr
  · intro lp hlp hroot pp hpp hm
    rw [mapHasKey_checkProjects_fst]
    exact Or.inr ⟨lp, hlp, hroot, pp, hpp, hm⟩

/-- Witness for C3 at the sample inputs, root `x`. -/
theorem override_shadows_constraint_witness :
    mapHasKey sampleRes.badconstraint "x" = false ∧
    ∀ lp ∈ sampleLock.projects, lp.ident.projectRoot = "x" →
      ∀ pp, mapLookup sampleManifest.overrides "x" = some pp →
        pp.constraint.Matches lp.version = false →
          mapHasKey sampleRes.badovr "x" = true :=
  override_shadows_constraint stdFalse sampleLock sampleManifest sampleTree
    sampleRes "x" rfl rfl

/-- Claim C4: a declared constraint root under whose prefix no required
path falls (an ineffectual root) never appears in the bad-constraints
mapping, whatever its locked version. -/
theorem ineffectual_constraint_never_reported (isStd : String → Bool) (l : Lock V)
    (mm : Manifest V) (rpt : PackageTree) (res : LockSatisfaction V) (root : String)
    (h : LockSatisfiesInputs isStd (some l) (some mm) rpt = some res)
    (hdecl : (mapLookup mm.dependencyConstraints root).isSome = true)
    (hnopfx : ∀ imp ∈ requiredSet isStd mm rpt, isPfx root imp = false) :
    mapHasKey res.badconstraint root = false := by
  rw [lockSatisfiesInputs_some_some, Option.some.injEq] at h
  subst h
  rw [Bool.eq_false_iff]
  intro hk
  rw [mapHasKey_checkProjects_snd] at hk
  rcases hk with hk | ⟨lp, -, -, -, pp, -, heff, -⟩
  · simp [mapHasKey] at hk
  · rw [mem_findEffectualConstraints] at heff
    obtain ⟨imp, himp, hl⟩ := heff
    obtain ⟨-, hpfx⟩ := longestMatchingKey_mem hl
    rw [hnopfx imp himp] at hpfx
    cases hpfx

/-- Witness for C4 at the sample inputs, root `z`. -/
theorem ineffectual_constraint_never_reported_witness :
    mapHasKey sampleRes.badconstraint "z" = false :=
  ineffectual_constraint_never_reported stdFalse sampleLock sampleManifest
    sampleTree sampleRes "z" rfl rfl (by decide)

/-- Claim C5: with an absent lock, `LockSatisfiesInputs` returns the
result with only the nolock flag set and everything else empty, and that
result does not pass. -/
theorem nil_lock_yields_nolock_only_result (isStd : String → Bool)
    (m : Option (Manifest V)) (rpt : PackageTree) :
    LockSatisfiesInputs isStd none m rpt =
      some { nolock := true, missingPkgs := ∅, excessPkgs := ∅,
             badovr := [], badconstraint := [] } ∧
    ({ nolock := true, missingPkgs := ∅, excessPkgs := ∅,
       badovr := [], badconstraint := [] } : LockSatisfaction V).Passed = false :=
  ⟨rfl, rfl⟩

/-- Claim C6 (refuted): with a present lock and an absent manifest, the
code reaches a method call on the nil manifest interface and panics
(modelled as the result `none`); in particular it never agrees with the
result for any concrete (e.g. all-empty) manifest, contradicting the
claimed treat-as-all-empty totality. -/
theorem nil_manifest_input_panics (isStd : String → Bool) (l : Lock V)
    (rpt : PackageTree) :
    LockSatisfiesInputs isStd (some l) none rpt = none ∧
    ∀ mm : Manifest V,
      LockSatisfiesInputs isStd (some l) none rpt ≠
        LockSatisfiesInputs isStd (some l) (some mm) rpt := by
  refine ⟨rfl, fun mm h => ?_⟩
  rw [lockSatisfiesInputs_some_none, lockSatisfiesInputs_some_some] at h
  cases h

/-- Claim C7: a declared constraint root is effectual exactly when it is
the longest declared-root prefix of some required import; concretely,
with required import `y/sub` and declared root `y`, `y` is effectual and
its failing constraint is recorded in the unmatched-constraints result. -/
theorem effectual_iff_longest_matching_root :
    (∀ (W : Type) (mm : Manifest W) (imports : Finset String) (root : String),
      root ∈ findEffectualConstraints mm imports ↔
        ∃ imp ∈ imports, root ∈ mm.dependencyConstraints.map Prod.fst ∧
          isPfx root imp = true ∧
          ∀ k ∈ mm.dependencyConstraints.map Prod.fst, isPfx k imp = true →
            k.length ≤ root.length) ∧
    ("y" ∈ findEffectualConstraints sampleManifest
        (requiredSet stdFalse sampleManifest sampleTree) ∧
      LockSatisfiesInputs stdFalse (some sampleLock) (some sampleManifest) sampleTree =
        some sampleRes ∧
      sampleRes.UnmatchedConstraints = [("y", ⟨sampleConstraint, 2⟩)]) := by
  constructor
  · intro W mm imports root
    rw [mem_findEffectualConstraints]
    constructor
    · rintro ⟨imp, himp, hl⟩
      rw [longestMatchingKey_eq_some_iff] at hl
      exact ⟨imp, himp, hl.1, hl.2.1, hl.2.2⟩
    · rintro ⟨imp, himp, hmem, hpfx, hmax⟩
      exact ⟨imp, himp, longestMatchingKey_eq_some_iff.mpr ⟨hmem, hpfx, hmax⟩⟩
  · exact ⟨by decide, rfl, rfl⟩

/-- Claim C8: results are equal whenever the inputs are set-equal — in
particular the outcome depends on the input-import list only through its
set of elements, so two runs on identical inputs agree on all
set-valued components. -/
theorem set_equal_inputs_give_equal_results (isStd : String → Bool) (l1 l2 : Lock V)
    (m : Option (Manifest V)) (rpt : PackageTree)
    (hp : l1.projects = l2.projects)
    (hi : l1.inputImports.Perm l2.inputImports) :
    LockSatisfiesInputs isStd (some l1) m rpt =
      LockSatisfiesInputs isStd (some l2) m rpt := by
  rcases m with _ | mm
  · rw [lockSatisfiesInputs_some_none, lockSatisfiesInputs_some_none]
  · rw [lockSatisfiesInputs_some_some, lockSatisfiesInputs_some_some]
    have hrec : recordedSet l1 = recordedSet l2 :=
      List.toFinset_eq_of_perm _ _ hi
    rw [hrec, hp]

/-- Witness for C8: the sample lock against its input-import permutation. -/
theorem set_equal_inputs_give_equal_results_witness :
    LockSatisfiesInputs stdFalse (some sampleLock) (some sampleManifest) sampleTree =
      LockSatisfiesInputs stdFalse (some sampleLockPerm) (some sampleManifest) sampleTree :=
  set_equal_inputs_give_equal_results stdFalse sampleLock sampleLockPerm
    (some sampleManifest) sampleTree rfl (by decide)

/-- Claim C9: a root with an override or constraint rule but no
corresponding locked project is reported in neither mismatch mapping. -/
theorem unlocked_roots_never_reported (isStd : String → Bool) (l : Lock V)
    (mm : Manifest V) (rpt : PackageTree) (res : LockSatisfaction V) (root : String)
    (h : LockSatisfiesInputs isStd (some l) (some mm) rpt = some res)
    (hrule : mapHasKey mm.overrides root = true ∨
      mapHasKey mm.dependencyConstraints root = true)
    (hunlocked : ∀ lp ∈ l.projects, lp.ident.projectRoot ≠ root) :
    mapHasKey res.badovr root = false ∧ mapHasKey res.badconstraint root = false := by
  rw [lockSatisfiesInputs_some_some, Option.some.injEq] at h
  subst h
  constructor
  · rw [Bool.eq_false_iff]
    intro hk
    rw [mapHasKey_checkProjects_fst] at hk
    rcases hk with hk | ⟨lp, hlp, hroot, -⟩
    · simp [mapHasKey] at hk
    · exact hunlocked lp hlp hroot
  · rw [Bool.eq_false_iff]
    intro hk
    rw [mapHasKey_checkProjects_snd] at hk
    rcases hk with hk | ⟨lp, hlp, hroot, -⟩
    · simp [mapHasKey] at hk
    · exact hunlocked lp hlp hroot

/-- Witness for C9 at the sample inputs, root `w` (overridden but not
locked). -/
theorem unlocked_roots_never_reported_witness :
    mapHasKey sampleRes.badovr "w" = false ∧
      mapHasKey sampleRes.badconstraint "w" = false :=
  unlocked_roots_never_reported stdFalse sampleLock sampleManifest sampleTree
    sampleRes "w" rfl (Or.inl rfl) (by decide)

/-- Claim C10: duplicates in the input-import list and in the
reachability output are deduplicated before differencing, and no import
appears in both the missing and the excess output. -/
theorem duplicate_imports_deduplicated (isStd : String → Bool) (l : Lock V)
    (m : Option (Manifest V)) (rpt : PackageTree) :
    LockSatisfiesInputs isStd
        (some { projects := l.projects, inputImports := l.inputImports.dedup }) m rpt =
      LockSatisfiesInputs isStd (some l) m rpt ∧
    LockSatisfiesInputs isStd (some l) m (dedupReach rpt) =
      LockSatisfiesInputs isStd (some l) m rpt ∧
    ∀ res, LockSatisfiesInputs isStd (some l) m rpt = some res →
      ∀ p, p ∈ res.missingPkgs → p ∉ res.excessPkgs := by
  rcases m with _ | mm
  · exact ⟨rfl, rfl, fun res hres => by cases hres⟩
  · refine ⟨?_, ?_, ?_⟩
    · rw [lockSatisfiesInputs_some_some, lockSatisfiesInputs_some_some]
      have hrec : recordedSet
          { projects := l.projects, inputImports := l.inputImports.dedup } =
          recordedSet l := listToFinset_dedup l.inputImports
      rw [hrec]
    · rw [lockSatisfiesInputs_some_some, lockSatisfiesInputs_some_some]
      have hreq : requiredSet isStd mm (dedupReach rpt) = requiredSet isStd mm rpt := by
        simp only [requiredSet, dedupReach]
        rw [listToFinset_dedup]
      rw [hreq]
    · intro res hres p hmiss
      rw [lockSatisfiesInputs_some_some, Option.some.injEq] at hres
      subst hres
      rw [Finset.mem_sdiff] at hmiss
      rw [Finset.mem_sdiff]
      rintro ⟨-, habs⟩
      exact habs hmiss.1

end GpsVerify
